import Mathlib

/-!
Verification of `tools/gen_docs.py` from artificial-intelligence-first/ssot.

The script stages a fixed set of root-level Markdown files into the
documentation generator's virtual output tree, rewriting a handful of
literal relative links per destination.  We embed:

* Python `str.replace` (left-to-right, non-overlapping scan over the text)
  as `pyReplace` on character lists, via a fuel-indexed structural
  recursion so that concrete instances evaluate in the kernel;
* the `rewrite_links` function;
* the `SOURCES` mapping table and the module-level staging loop, with the
  ambient filesystem modelled as a function `String → Option String`
  (`none` models a read failure, i.e. a raised exception) and the host's
  output interface as the ordered list of (destination, text) writes.
-/

set_option maxRecDepth 100000

namespace SSOT

/-- Fuel-indexed left-to-right scan implementing the semantics of Python
`str.replace`: at each position, if `pat` matches there, emit `repl` and
skip past the matched occurrence; otherwise keep the character and advance
by one.  The fuel is always instantiated with the length of the scanned
list, which suffices. -/
def pyReplaceFuel (pat repl : List Char) : Nat → List Char → List Char
  | _, [] => []
  | 0, s => s
  | fuel + 1, c :: rest =>
    if pat.isPrefixOf (c :: rest) then
      repl ++ pyReplaceFuel pat repl fuel (rest.drop (pat.length - 1))
    else
      c :: pyReplaceFuel pat repl fuel rest

/-- Python `s.replace(pat, repl)` on explicit character lists (every call in
the script uses a nonempty `pat`). -/
def pyReplace (pat repl s : List Char) : List Char :=
  pyReplaceFuel pat repl s.length s

/-- The absolute license URL used by `rewrite_links`. -/
def LICENSE_URL : String :=
  "https://github.com/artificial-intelligence-first/ssot/blob/main/LICENSE"

/-- Embedding of Python `content.replace(pat, repl)` on `String`. -/
def strReplace (content pat repl : String) : String :=
  ⟨pyReplace pat.data repl.data content.data⟩

/-- Embedding of `rewrite_links` from `tools/gen_docs.py`: two successive
conditionals on the destination name, each applying its literal
replacements to the full text in declared order. -/
def rewrite_links (name : String) (content : String) : String :=
  let content1 :=
    if name = "index.md" then
      strReplace (strReplace (strReplace content "./docs/" "") "./_templates/" "_templates/")
        "./LICENSE" LICENSE_URL
    else content
  if name = "AGENTS.md" then strReplace content1 "./docs/" "" else content1

/-- Embedding of the `SOURCES` table (destination virtual path, source path
relative to the repository root), in declared order. -/
def SOURCES : List (String × String) :=
  [("index.md", "README.md"),
   ("AGENTS.md", "AGENTS.md"),
   ("_templates/TOPIC_TEMPLATE.md", "_templates/TOPIC_TEMPLATE.md"),
   ("_templates/SECTION_TEMPLATE.md", "_templates/SECTION_TEMPLATE.md"),
   ("_templates/FRONT_MATTER.md", "_templates/FRONT_MATTER.md")]

/-- Embedding of the module-level staging loop.  `readText` is the ambient
filesystem: `none` models `read_text` raising (missing or undecodable
source).  The loop reads each entry's source, rewrites, and records the
write; since no exception is caught, a failed read aborts the loop at that
entry (fail-fast).  The result is the ordered list of performed writes
(destination, staged text) together with `true` for a completed run and
`false` for an aborted one. -/
def stageLoop (readText : String → Option String) :
    List (String × String) → List (String × String) × Bool
  | [] => ([], true)
  | (target, source) :: rest =>
    match readText source with
    | none => ([], false)
    | some text =>
      let out := stageLoop readText rest
      ((target, rewrite_links target text) :: out.1, out.2)

/-- A full run of the staging loop over `SOURCES`. -/
def stageRun (readText : String → Option String) : List (String × String) × Bool :=
  stageLoop readText SOURCES

/-- Rule table for the landing page as the spec words it: an ordered list of
(literal search substring, literal replacement substring) pairs. -/
def indexRules : List (String × String) :=
  [("./docs/", ""), ("./_templates/", "_templates/"), ("./LICENSE", LICENSE_URL)]

/-- Reference staging of a rule set as the spec words it: each rule replaces
every occurrence of its literal search substring, rules applied in the
fixed order they are declared. -/
def applyRules (rules : List (String × String)) (content : String) : String :=
  rules.foldl (fun acc rule => strReplace acc rule.1 rule.2) content

/-! ### Basic facts about the fuel-indexed scan -/

lemma drop_len_le (rest : List Char) (n : Nat) : (rest.drop n).length ≤ rest.length := by
  rw [List.length_drop]
  exact Nat.sub_le _ _

lemma pyReplaceFuel_irrel (pat repl : List Char) :
    ∀ (f g : Nat) (s : List Char), s.length ≤ f → s.length ≤ g →
      pyReplaceFuel pat repl f s = pyReplaceFuel pat repl g s := by
  intro f
  induction f with
  | zero =>
    intro g s hf _
    have : s = [] := List.eq_nil_of_length_eq_zero (Nat.le_zero.mp hf)
    subst this
    cases g <;> rfl
  | succ f ih =>
    intro g s hf hg
    cases s with
    | nil => cases g <;> rfl
    | cons c rest =>
      cases g with
      | zero => simp at hg
      | succ g =>
        by_cases h : pat.isPrefixOf (c :: rest)
        · have hf' : (rest.drop (pat.length - 1)).length ≤ f :=
            le_trans (drop_len_le rest _) (Nat.le_of_succ_le_succ hf)
          have hg' : (rest.drop (pat.length - 1)).length ≤ g :=
            le_trans (drop_len_le rest _) (Nat.le_of_succ_le_succ hg)
          simp only [pyReplaceFuel, h, if_true]
          rw [ih g _ hf' hg']
        · simp only [pyReplaceFuel, h]
          rw [ih g rest (Nat.le_of_succ_le_succ hf) (Nat.le_of_succ_le_succ hg)]
          simp

lemma pyReplace_nil (pat repl : List Char) : pyReplace pat repl [] = [] := rfl

lemma pyReplace_cons_match (pat repl : List Char) {c : Char} {rest : List Char}
    (h : pat.isPrefixOf (c :: rest)) :
    pyReplace pat repl (c :: rest)
      = repl ++ pyReplace pat repl (rest.drop (pat.length - 1)) := by
  show pyReplaceFuel pat repl (rest.length + 1) (c :: rest) = _
  simp only [pyReplaceFuel, h, if_true]
  have := pyReplaceFuel_irrel pat repl rest.length (rest.drop (pat.length - 1)).length
    (rest.drop (pat.length - 1)) (drop_len_le rest _) (le_refl _)
  rw [this]
  rfl

lemma pyReplace_cons_nomatch (pat repl : List Char) {c : Char} {rest : List Char}
    (h : ¬ pat.isPrefixOf (c :: rest)) :
    pyReplace pat repl (c :: rest) = c :: pyReplace pat repl rest := by
  show pyReplaceFuel pat repl (rest.length + 1) (c :: rest) = _
  simp only [pyReplaceFuel, h]
  simp only [Bool.false_eq_true, if_false]
  rfl

/-! ### Helper facts about list affixes -/

lemma ipo_iff {l₁ l₂ : List Char} : l₁.isPrefixOf l₂ = true ↔ l₁ <+: l₂ :=
  List.isPrefixOf_iff_prefix

lemma cons_pre_iff {a b : Char} {l₁ l₂ : List Char} :
    a :: l₁ <+: b :: l₂ ↔ a = b ∧ l₁ <+: l₂ := List.cons_prefix_cons

lemma pre_of_append_of_le {l a b : List Char} (h : l <+: a ++ b) (hl : l.length ≤ a.length) :
    l <+: a := by
  obtain ⟨w, hw⟩ := h
  have h1 : l = (a ++ b).take l.length := by
    rw [← hw]
    exact (List.take_left l w).symm
  rw [h1, List.take_append_of_le_length hl]
  exact List.take_prefix _ _

lemma suf_append_cases {r b : List Char} : ∀ {a : List Char}, r <:+ a ++ b →
    r <:+ b ∨ ∃ t, t <:+ a ∧ r = t ++ b := by
  intro a
  induction a with
  | nil => intro h; exact Or.inl h
  | cons x a' ih =>
    intro h
    rcases List.suffix_cons_iff.mp h with h1 | h2
    · exact Or.inr ⟨x :: a', List.suffix_refl _, h1⟩
    · rcases ih h2 with h3 | ⟨t, ht, rfl⟩
      · exact Or.inl h3
      · exact Or.inr ⟨t, ht.trans (List.suffix_cons x a'), rfl⟩

lemma infx_iff {l₁ l₂ : List Char} : l₁ <:+: l₂ ↔ ∃ t, l₁ <+: t ∧ t <:+ l₂ := by
  constructor
  · rintro ⟨s, t, rfl⟩
    exact ⟨l₁ ++ t, ⟨t, rfl⟩, ⟨s, (List.append_assoc s l₁ t).symm⟩⟩
  · rintro ⟨t, ⟨w, rfl⟩, ⟨v, rfl⟩⟩
    exact ⟨v, w, by simp⟩

lemma infx_cons {l rest : List Char} {c : Char} (h : l <:+: rest) : l <:+: c :: rest := by
  obtain ⟨u, v, huv⟩ := h
  exact ⟨c :: u, v, by rw [List.cons_append, List.cons_append, huv]⟩

lemma pre_infx {l s : List Char} (h : l <+: s) : l <:+: s := by
  obtain ⟨w, hw⟩ := h
  exact ⟨[], w, by rw [List.nil_append, hw]⟩

/-! ### The scan touches nothing when the search substring is absent -/

lemma pyReplace_id_of_no_infx (pat repl : List Char) :
    ∀ s : List Char, ¬ pat <:+: s → pyReplace pat repl s = s := by
  intro s
  induction s with
  | nil => intro _; rfl
  | cons c rest ih =>
    intro h
    have hp : ¬ pat.isPrefixOf (c :: rest) := by
      intro hp
      exact h (pre_infx (ipo_iff.mp hp))
    rw [pyReplace_cons_nomatch pat repl hp, ih (fun hi => h (infx_cons hi))]

/-! ### The scan's output never starts with a strict tail of the pattern
unless the input did (under side conditions on `pat`/`repl` that hold for
the license rule). -/

lemma drop_pre_pyReplace (pat repl : List Char)
    (hlen : pat.length ≤ repl.length)
    (hdr : ∀ j, j < pat.length → 1 ≤ j → ¬ pat.drop j <+: repl) :
    ∀ (s : List Char) (k : Nat), 1 ≤ k → k < pat.length →
      pat.drop k <+: pyReplace pat repl s → pat.drop k <+: s := by
  intro s
  induction s with
  | nil =>
    intro k hk1 hk2 hpre
    rw [pyReplace_nil] at hpre
    have h0 : pat.drop k = [] := List.prefix_nil.mp hpre
    have : pat.length - k = 0 := by
      rw [← List.length_drop, h0]
      rfl
    omega
  | cons c rest ih =>
    intro k hk1 hk2 hpre
    by_cases hp : pat.isPrefixOf (c :: rest)
    · rw [pyReplace_cons_match pat repl hp] at hpre
      have hlt : (pat.drop k).length ≤ repl.length := by
        rw [List.length_drop]
        omega
      exact absurd (pre_of_append_of_le hpre hlt) (hdr k hk2 hk1)
    · rw [pyReplace_cons_nomatch pat repl hp] at hpre
      have hne : pat.drop k ≠ [] := by
        intro h0
        have : pat.length - k = 0 := by
          rw [← List.length_drop, h0]
          rfl
        omega
      obtain ⟨d, y', hy⟩ := List.exists_cons_of_ne_nil hne
      have hy' : y' = pat.drop (k + 1) := by
        have := List.tail_drop pat k
        rw [hy] at this
        exact this
      rw [hy] at hpre
      obtain ⟨hd, htl⟩ := cons_pre_iff.mp hpre
      have hrest : pat.drop (k + 1) <+: rest := by
        by_cases hk3 : k + 1 < pat.length
        · exact ih (k + 1) (by omega) hk3 (hy' ▸ htl)
        · have : k + 1 = pat.length := by omega
          rw [this, List.drop_length]
          exact List.nil_prefix
      rw [hy, hy']
      exact cons_pre_iff.mpr ⟨hd, hrest⟩

/-! ### The pattern is never a prefix of the scan's output -/

lemma pat_not_pre_pyReplace (pat repl : List Char)
    (hne : pat ≠ [])
    (hlen : pat.length ≤ repl.length)
    (hpr : ¬ pat <+: repl)
    (hdr : ∀ j, j < pat.length → 1 ≤ j → ¬ pat.drop j <+: repl)
    (s : List Char) : ¬ pat <+: pyReplace pat repl s := by
  intro hpre
  cases s with
  | nil =>
    rw [pyReplace_nil] at hpre
    exact hne (List.prefix_nil.mp hpre)
  | cons c rest =>
    by_cases hp : pat.isPrefixOf (c :: rest)
    · rw [pyReplace_cons_match pat repl hp] at hpre
      exact hpr (pre_of_append_of_le hpre hlen)
    · rw [pyReplace_cons_nomatch pat repl hp] at hpre
      obtain ⟨p0, pt, hpat⟩ := List.exists_cons_of_ne_nil hne
      subst hpat
      obtain ⟨hd, htl⟩ := cons_pre_iff.mp hpre
      have hrest : pt <+: rest := by
        by_cases h1 : 1 < (p0 :: pt).length
        · exact drop_pre_pyReplace (p0 :: pt) repl hlen hdr rest 1 (le_refl 1) h1 htl
        · have hpt0 : pt = [] := by
            simp only [List.length_cons] at h1
            exact List.eq_nil_of_length_eq_zero (by omega)
          rw [hpt0]
          exact List.nil_prefix
      exact hp (ipo_iff.mpr (cons_pre_iff.mpr ⟨hd, hrest⟩))

/-! ### Every suffix of the scan's output is a suffix of `repl` glued onto a
scan output -/

lemma suf_pyReplace_structure (pat repl : List Char) :
    ∀ (n : Nat) (s : List Char), s.length ≤ n → ∀ r, r <:+ pyReplace pat repl s →
      ∃ t u, t <:+ repl ∧ r = t ++ pyReplace pat repl u := by
  intro n
  induction n with
  | zero =>
    intro s hs r hr
    have : s = [] := List.eq_nil_of_length_eq_zero (Nat.le_zero.mp hs)
    subst this
    rw [pyReplace_nil] at hr
    obtain rfl : r = [] := List.suffix_nil.mp hr
    exact ⟨[], [], List.nil_suffix, rfl⟩
  | succ n ih =>
    intro s hs r hr
    cases s with
    | nil =>
      rw [pyReplace_nil] at hr
      obtain rfl : r = [] := List.suffix_nil.mp hr
      exact ⟨[], [], List.nil_suffix, rfl⟩
    | cons c rest =>
      by_cases hp : pat.isPrefixOf (c :: rest)
      · rw [pyReplace_cons_match pat repl hp] at hr
        rcases suf_append_cases hr with h1 | ⟨t, ht, rfl⟩
        · exact ih (rest.drop (pat.length - 1))
            (le_trans (drop_len_le rest _) (Nat.le_of_succ_le_succ hs)) r h1
        · exact ⟨t, rest.drop (pat.length - 1), ht, rfl⟩
      · rw [pyReplace_cons_nomatch pat repl hp] at hr
        rcases List.suffix_cons_iff.mp hr with h1 | h2
        · refine ⟨[], c :: rest, List.nil_suffix, ?_⟩
          rw [List.nil_append, pyReplace_cons_nomatch pat repl hp]
          exact h1
        · exact ih rest (Nat.le_of_succ_le_succ hs) r h2

/-! ### Main lemma: the pattern never occurs in the scan's output -/

lemma pyReplace_no_pat_infx (pat repl : List Char)
    (hne : pat ≠ [])
    (hlen : pat.length ≤ repl.length)
    (hinf : ¬ pat <:+: repl)
    (hdr : ∀ j, j < pat.length → 1 ≤ j → ¬ pat.drop j <+: repl)
    (htails : ∀ t, t <:+ repl → t <+: pat → t = [])
    (s : List Char) : ¬ pat <:+: pyReplace pat repl s := by
  intro h
  obtain ⟨r, hpre, hsuf⟩ := infx_iff.mp h
  obtain ⟨t, u, ht, rfl⟩ :=
    suf_pyReplace_structure pat repl s.length s (le_refl _) r hsuf
  rcases le_or_lt pat.length t.length with hle | hlt
  · have hpt : pat <+: t :=
      List.prefix_of_prefix_length_le hpre ⟨pyReplace pat repl u, rfl⟩ hle
    obtain ⟨w1, hw1⟩ := hpt
    obtain ⟨w2, hw2⟩ := ht
    exact hinf ⟨w2, w1, by rw [← hw2, ← hw1, List.append_assoc]⟩
  · have htp : t <+: pat :=
      List.prefix_of_prefix_length_le ⟨pyReplace pat repl u, rfl⟩ hpre (le_of_lt hlt)
    obtain rfl : t = [] := htails t ht htp
    rw [List.nil_append] at hpre
    have hpr : ¬ pat <+: repl := fun hp => hinf (pre_infx hp)
    exact pat_not_pre_pyReplace pat repl hne hlen hpr hdr u hpre

/-! ### String-level consequences -/

lemma strReplace_data (content pat repl : String) :
    (strReplace content pat repl).data = pyReplace pat.data repl.data content.data := rfl

lemma strReplace_id {content pat repl : String} (h : ¬ (pat.data <:+: content.data)) :
    strReplace content pat repl = content := by
  unfold strReplace
  rw [pyReplace_id_of_no_infx pat.data repl.data content.data h]

lemma rewrite_links_index (content : String) :
    rewrite_links "index.md" content
      = strReplace (strReplace (strReplace content "./docs/" "") "./_templates/" "_templates/")
          "./LICENSE" LICENSE_URL := rfl

lemma rewrite_links_agents (content : String) :
    rewrite_links "AGENTS.md" content = strReplace content "./docs/" "" := rfl

lemma rewrite_links_other {name : String} (h1 : name ≠ "index.md") (h2 : name ≠ "AGENTS.md")
    (content : String) : rewrite_links name content = content := by
  unfold rewrite_links
  rw [if_neg h1, if_neg h2]

/-- The license rule can never leave or create an occurrence of its own
search substring: its replacement does not contain `./LICENSE`, no nonempty
tail of `./LICENSE` starts the replacement, and no nonempty suffix of the
replacement starts `./LICENSE`. -/
lemma license_rule_no_infx (s : List Char) :
    ¬ ("./LICENSE".data <:+: pyReplace "./LICENSE".data LICENSE_URL.data s) := by
  apply pyReplace_no_pat_infx
  · decide
  · decide
  · decide
  · decide
  · intro t ht
    exact (by decide : ∀ t ∈ LICENSE_URL.data.tails, t <+: "./LICENSE".data → t = []) t
      ((List.mem_tails t LICENSE_URL.data).mpr ht)

/-! ### Facts about the staging loop -/

lemma stageLoop_ok (readText : String → Option String) :
    ∀ entries : List (String × String),
      (∀ p ∈ entries.map Prod.snd, (readText p).isSome = true) →
      (stageLoop readText entries).2 = true ∧
        (stageLoop readText entries).1.map Prod.fst = entries.map Prod.fst := by
  intro entries
  induction entries with
  | nil => intro _; exact ⟨rfl, rfl⟩
  | cons e rest ih =>
    intro h
    obtain ⟨target, source⟩ := e
    have hs : (readText source).isSome = true := h source (by simp)
    obtain ⟨text, htext⟩ := Option.isSome_iff_exists.mp hs
    have ih' := ih (fun p hp => h p (by simp [hp]))
    simp only [stageLoop, htext, List.map_cons]
    exact ⟨ih'.1, by rw [ih'.2]⟩

lemma stageLoop_fail (readText : String → Option String) (t s : String)
    (post : List (String × String)) :
    ∀ pre : List (String × String),
      (∀ p ∈ pre.map Prod.snd, (readText p).isSome = true) →
      readText s = none →
      (stageLoop readText (pre ++ (t, s) :: post)).2 = false ∧
        (stageLoop readText (pre ++ (t, s) :: post)).1.map Prod.fst = pre.map Prod.fst := by
  intro pre
  induction pre with
  | nil =>
    intro _ hnone
    simp [stageLoop, hnone]
  | cons e pre' ih =>
    intro h hnone
    obtain ⟨target, source⟩ := e
    have hs : (readText source).isSome = true := h source (by simp)
    obtain ⟨text, htext⟩ := Option.isSome_iff_exists.mp hs
    have ih' := ih (fun p hp => h p (by simp [hp])) hnone
    simp only [List.cons_append, stageLoop, htext, List.map_cons]
    refine ⟨ih'.1, ?_⟩
    rw [List.append_eq, ih'.2]

lemma nodup_middle_not_mem {A : List String} {x : String} {B : List String}
    (h : (A ++ x :: B).Nodup) : x ∉ A ∧ ∀ b ∈ B, b ∉ A := by
  rw [List.nodup_append] at h
  obtain ⟨_, _, hdisj⟩ := h
  constructor
  · intro hx
    exact hdisj hx (by simp)
  · intro b hb hbA
    exact hdisj hbA (by simp [hb])

/-! ### The claims -/

/-- C1 (amended): for the main-landing-page destination, for every input
text containing `./docs/`, the output contains no occurrence of
`./LICENSE` (every occurrence is replaced by the license URL, whose text
cannot recombine into `./LICENSE`); occurrences of `./docs/` and
`./_templates/` may however survive when a replacement joins surrounding
text into a new occurrence. -/
theorem claim_C1 (content : String) (_h : "./docs/".data <:+: content.data) :
    ¬ ("./LICENSE".data <:+: (rewrite_links "index.md" content).data) := by
  rw [rewrite_links_index, strReplace_data]
  exact license_rule_no_infx _

/-- C1 as stated is false: this input contains `./docs/`, yet the staged
output still contains `./docs/` (the deletion glued `./doc` to `s/`) and
`./_templates/` (the rewrite glued `./` to `_templates/`). -/
theorem claim_C1_counterexample :
    "./docs/".data <:+: ("./doc./docs/s/ ././_templates/" : String).data ∧
      "./docs/".data <:+: (rewrite_links "index.md" "./doc./docs/s/ ././_templates/").data ∧
      "./_templates/".data <:+: (rewrite_links "index.md" "./doc./docs/s/ ././_templates/").data :=
  ⟨by decide, by decide, by decide⟩

/-- Witness for C1: a concrete input containing `./docs/` whose staged
output is free of `./LICENSE`. -/
theorem claim_C1_witness :
    ¬ ("./LICENSE".data <:+: (rewrite_links "index.md" "./docs/x").data) :=
  claim_C1 "./docs/x" (by decide)

/-- C2 (amended): applying `rewrite_links` a second time is a no-op
whenever the first output no longer contains any of the destination's
search substrings; because a replacement can re-form a search substring by
joining surrounding text, that condition can fail, and then a second
application differs. -/
theorem claim_C2 (name content : String)
    (hidx : name = "index.md" →
      ¬ ("./docs/".data <:+: (rewrite_links name content).data) ∧
      ¬ ("./_templates/".data <:+: (rewrite_links name content).data) ∧
      ¬ ("./LICENSE".data <:+: (rewrite_links name content).data))
    (hag : name = "AGENTS.md" → ¬ ("./docs/".data <:+: (rewrite_links name content).data)) :
    rewrite_links name (rewrite_links name content) = rewrite_links name content := by
  by_cases h1 : name = "index.md"
  · subst h1
    obtain ⟨hd, ht, hl⟩ := hidx rfl
    rw [rewrite_links_index (rewrite_links "index.md" content), strReplace_id hd,
      strReplace_id ht, strReplace_id hl]
  · by_cases h2 : name = "AGENTS.md"
    · subst h2
      rw [rewrite_links_agents (rewrite_links "AGENTS.md" content), strReplace_id (hag rfl)]
    · rw [rewrite_links_other h1 h2, rewrite_links_other h1 h2]

/-- C2 as stated is false: deleting the `./docs/` occurrence of this input
re-forms `./docs/` in the output, so a second application deletes it again. -/
theorem claim_C2_counterexample :
    rewrite_links "index.md" (rewrite_links "index.md" "./doc./docs/s/")
      ≠ rewrite_links "index.md" "./doc./docs/s/" := by decide

/-- Witness for C2: on an input whose output contains no search substring,
a second application is a no-op. -/
theorem claim_C2_witness :
    rewrite_links "index.md" (rewrite_links "index.md" "hello")
      = rewrite_links "index.md" "hello" :=
  claim_C2 "index.md" "hello" (fun _ => ⟨by decide, by decide, by decide⟩)
    (fun h => absurd h (by decide))

/-- C3: for the destination `index.md`, `rewrite_links` coincides with the
reference definition applying the three declared literal replacements to
the full text in declared order. -/
theorem claim_C3 (content : String) :
    rewrite_links "index.md" content = applyRules indexRules content := rfl

/-- C4: for the destination `AGENTS.md`, `rewrite_links` performs exactly
the single `./docs/` → empty replacement, and the declared example holds. -/
theorem claim_C4 :
    (∀ content : String, rewrite_links "AGENTS.md" content = strReplace content "./docs/" "") ∧
      rewrite_links "AGENTS.md" "See ./docs/guide.md for details."
        = "See guide.md for details." :=
  ⟨fun _ => rfl, by decide⟩

/-- C5: for every destination name other than `index.md` and `AGENTS.md`,
`rewrite_links` returns the input text unchanged. -/
theorem claim_C5 (name content : String) (h1 : name ≠ "index.md") (h2 : name ≠ "AGENTS.md") :
    rewrite_links name content = content :=
  rewrite_links_other h1 h2 content

/-- Witness for C5: a template destination stages its content verbatim. -/
theorem claim_C5_witness :
    rewrite_links "_templates/TOPIC_TEMPLATE.md" "./docs/ ./LICENSE" = "./docs/ ./LICENSE" :=
  claim_C5 "_templates/TOPIC_TEMPLATE.md" "./docs/ ./LICENSE" (by decide) (by decide)

/-- C6: when every declared source is readable, a run writes exactly the
five declared destination paths, each once, in the mapping table's
declared order. -/
theorem claim_C6 (readText : String → Option String)
    (h : ∀ p ∈ SOURCES.map Prod.snd, (readText p).isSome = true) :
    (stageRun readText).2 = true ∧
      (stageRun readText).1.map Prod.fst =
        ["index.md", "AGENTS.md", "_templates/TOPIC_TEMPLATE.md",
         "_templates/SECTION_TEMPLATE.md", "_templates/FRONT_MATTER.md"] := by
  have hok := stageLoop_ok readText SOURCES h
  exact ⟨hok.1, hok.2.trans (by decide)⟩

/-- Witness for C6: with every read succeeding, all five destinations are
written in order. -/
theorem claim_C6_witness :
    (stageRun (fun _ => some "")).2 = true ∧
      (stageRun (fun _ => some "")).1.map Prod.fst =
        ["index.md", "AGENTS.md", "_templates/TOPIC_TEMPLATE.md",
         "_templates/SECTION_TEMPLATE.md", "_templates/FRONT_MATTER.md"] :=
  claim_C6 (fun _ => some "") (by decide)

/-- C7: if reading a declared source fails, the run aborts at that entry:
destinations earlier in declared order have been written, and neither the
failing entry's destination nor any later destination is written. -/
theorem claim_C7 (readText : String → Option String) (pre post : List (String × String))
    (t s : String) (hsplit : SOURCES = pre ++ (t, s) :: post)
    (hpre : ∀ p ∈ pre.map Prod.snd, (readText p).isSome = true)
    (hfail : readText s = none) :
    (stageRun readText).2 = false ∧
      (stageRun readText).1.map Prod.fst = pre.map Prod.fst ∧
      t ∉ (stageRun readText).1.map Prod.fst ∧
      ∀ e ∈ post, e.1 ∉ (stageRun readText).1.map Prod.fst := by
  have hrun := stageLoop_fail readText t s post pre hpre hfail
  have hnd : ((pre ++ (t, s) :: post).map Prod.fst).Nodup := by
    rw [← hsplit]
    decide
  rw [List.map_append, List.map_cons] at hnd
  have hmem := nodup_middle_not_mem hnd
  unfold stageRun
  rw [hsplit]
  refine ⟨hrun.1, hrun.2, ?_, ?_⟩
  · rw [hrun.2]
    exact hmem.1
  · intro e he
    rw [hrun.2]
    exact hmem.2 e.1 (List.mem_map_of_mem Prod.fst he)

/-- Witness for C7: the second source is unreadable, so only the first
destination is written and the run aborts. -/
theorem claim_C7_witness :
    (stageRun (fun p => if p = "README.md" then some "x" else none)).2 = false ∧
      (stageRun (fun p => if p = "README.md" then some "x" else none)).1.map Prod.fst =
        ([("index.md", "README.md")] : List (String × String)).map Prod.fst ∧
      "AGENTS.md" ∉
        (stageRun (fun p => if p = "README.md" then some "x" else none)).1.map Prod.fst ∧
      ∀ e ∈ ([("_templates/TOPIC_TEMPLATE.md", "_templates/TOPIC_TEMPLATE.md"),
              ("_templates/SECTION_TEMPLATE.md", "_templates/SECTION_TEMPLATE.md"),
              ("_templates/FRONT_MATTER.md", "_templates/FRONT_MATTER.md")] :
             List (String × String)),
        e.1 ∉ (stageRun (fun p => if p = "README.md" then some "x" else none)).1.map Prod.fst :=
  claim_C7 (fun p => if p = "README.md" then some "x" else none)
    [("index.md", "README.md")]
    [("_templates/TOPIC_TEMPLATE.md", "_templates/TOPIC_TEMPLATE.md"),
     ("_templates/SECTION_TEMPLATE.md", "_templates/SECTION_TEMPLATE.md"),
     ("_templates/FRONT_MATTER.md", "_templates/FRONT_MATTER.md")]
    "AGENTS.md" "AGENTS.md" rfl (by decide) (by decide)

/-- C8: a text containing none of the destination's search substrings is
returned unchanged by `rewrite_links`. -/
theorem claim_C8 (name content : String)
    (hidx : name = "index.md" →
      ¬ ("./docs/".data <:+: content.data) ∧
      ¬ ("./_templates/".data <:+: content.data) ∧
      ¬ ("./LICENSE".data <:+: content.data))
    (hag : name = "AGENTS.md" → ¬ ("./docs/".data <:+: content.data)) :
    rewrite_links name content = content := by
  by_cases h1 : name = "index.md"
  · subst h1
    obtain ⟨hd, ht, hl⟩ := hidx rfl
    rw [rewrite_links_index, strReplace_id hd, strReplace_id ht, strReplace_id hl]
  · by_cases h2 : name = "AGENTS.md"
    · subst h2
      rw [rewrite_links_agents, strReplace_id (hag rfl)]
    · exact rewrite_links_other h1 h2 content

/-- Witness for C8: a link-free text stages unchanged for `index.md`. -/
theorem claim_C8_witness :
    rewrite_links "index.md" "no links here" = "no links here" :=
  claim_C8 "index.md" "no links here" (fun _ => ⟨by decide, by decide, by decide⟩)
    (fun h => absurd h (by decide))

/-- C9: `rewrite_links` is a pure function of its two arguments: equal
inputs give equal outputs, with no dependence on ambient state. -/
theorem claim_C9 (name₁ content₁ name₂ content₂ : String)
    (hn : name₁ = name₂) (hc : content₁ = content₂) :
    rewrite_links name₁ content₁ = rewrite_links name₂ content₂ := by
  rw [hn, hc]

/-- Witness for C9: two runs on the same concrete arguments agree. -/
theorem claim_C9_witness :
    rewrite_links "index.md" "a" = rewrite_links "index.md" "a" :=
  claim_C9 "index.md" "a" "index.md" "a" rfl rfl

/-- C10: the scan is single-pass, left-to-right, non-overlapping:
on `./doc./docs/s/` the only scanned occurrence of `./docs/` is deleted,
the deletion joins `./doc` with `s/` into a fresh `./docs/`, and that
re-formed occurrence survives into the output. -/
theorem claim_C10 :
    rewrite_links "index.md" "./doc./docs/s/" = "./docs/" ∧
      "./docs/".data <:+: ("./doc./docs/s/" : String).data ∧
      "./docs/".data <:+: (rewrite_links "index.md" "./doc./docs/s/").data :=
  ⟨by decide, by decide, by decide⟩

end SSOT
